import Mathlib

/-!
Verification development for `scipy/linalg/_matfuncs_sqrtm.py`.

The module contains two functions:

* `_sqrtm_triu(T, blocksize)` — the blocked triangular square-root engine
  (diagonal seeding, block partition, within-block scalar recurrence,
  between-block Sylvester solves);
* `sqrtm(A, disp, blocksize)` — the driver (validation, Schur factorization,
  engine invocation, reconstruction, optional residual estimate).

Matrices are embedded as total functions `Nat → Nat → α` over an arbitrary
field `α`; entries outside the declared bounds are irrelevant (numpy slices
are modelled as 0-padded finite views).  The external collaborators
(`schur`, `rsf2csf`, `ztrsyl`, `norm`, dense `np.matrix` arithmetic) are not
part of the source file and are taken as parameters of the embedding.
-/

/-- A dense matrix, embedded as a total function on `Nat` indices. -/
def Mat (α : Type) : Type := Nat → Nat → α

namespace SqrtmPy

variable {α : Type} [Field α]

/-- Single-entry assignment `R[i, j] = v`. -/
def updEntry (R : Mat α) (i j : Nat) (v : α) : Mat α :=
  fun a b => if a = i ∧ b = j then v else R a b

/-- Line 48-51: `R = np.zeros((n, n)); R[np.diag_indices(n)] = np.sqrt(np.diag(T))`.
`sq` is the scalar (principal complex) square root, a numpy primitive. -/
def seedDiag (sq : α → α) (T : Mat α) (n : Nat) : Mat α :=
  fun i j => if i = j ∧ i < n then sq (T i i) else 0

/-- Line 54: `nblocks = max(n // blocksize, 1)`. -/
def nblocksOf (n blocksize : Nat) : Nat := max (n / blocksize) 1

/-- Line 58: `bsmall, nlarge = divmod(n, nblocks)` (quotient part). -/
def bsmallOf (n blocksize : Nat) : Nat := n / nblocksOf n blocksize

/-- Line 58: `bsmall, nlarge = divmod(n, nblocks)` (remainder part). -/
def nlargeOf (n blocksize : Nat) : Nat := n % nblocksOf n blocksize

/-- Line 59: `blarge = bsmall + 1`. -/
def blargeOf (n blocksize : Nat) : Nat := bsmallOf n blocksize + 1

/-- Line 60: `nsmall = nblocks - nlarge`. -/
def nsmallOf (n blocksize : Nat) : Nat := nblocksOf n blocksize - nlargeOf n blocksize

/-- Lines 67-69: one pass of the block-list construction loop.  Given the pair
`cs = (count, size)`, append `count` blocks of width `size` to the accumulated
list, threading the running `start` offset. -/
def addBlocks (st : List (Nat × Nat) × Nat) (cs : Nat × Nat) : List (Nat × Nat) × Nat :=
  (List.range cs.1).foldl (fun t _ => (t.1 ++ [(t.2, t.2 + cs.2)], t.2 + cs.2)) st

/-- Lines 65-70: `start_stop_pairs`, built by iterating the construction loop
over `((nsmall, bsmall), (nlarge, blarge))` starting from the empty list and
`start = 0`. -/
def start_stop_pairs (n blocksize : Nat) : List (Nat × Nat) :=
  ([(nsmallOf n blocksize, bsmallOf n blocksize),
    (nlargeOf n blocksize, blargeOf n blocksize)].foldl addBlocks ([], 0)).1

/-- Closed form for a run of equal-width blocks starting at `start`. -/
def evenBlocks (start count size : Nat) : List (Nat × Nat) :=
  (List.range count).map (fun k => (start + size * k, start + size * (k + 1)))

/-- Line 77: the correction inner product `R[i, i+1:j].dot(R[i+1:j, j])`. -/
def corrSum (R : Mat α) (i j : Nat) : α :=
  ((List.range' (i + 1) (j - i - 1)).map (fun k => R i k * R k j)).sum

/-- Lines 75-79: body of the innermost within-block loop, computing
`R[i,j] = (T[i,j] - s) / (R[i,i] + R[j,j])` with `s` guarded by `j - i > 1`. -/
def colStep (T : Mat α) (j : Nat) (R : Mat α) (i : Nat) : Mat α :=
  updEntry R i j
    ((T i j - (if j - i > 1 then corrSum R i j else 0)) / (R i i + R j j))

/-- Line 74: `for i in range(j-1, start-1, -1)` — the descending row loop. -/
def colLoop (T : Mat α) (start : Nat) (R : Mat α) (j : Nat) : Mat α :=
  ((List.range' start (j - start)).reverse).foldl (colStep T j) R

/-- Line 73: `for j in range(start, stop)` — the ascending column loop of one
block `p = (start, stop)`. -/
def blockStep (T : Mat α) (R : Mat α) (p : Nat × Nat) : Mat α :=
  (List.range' p.1 (p.2 - p.1)).foldl (colLoop T p.1) R

/-- Lines 72-79: the within-block phase, iterating over `start_stop_pairs`. -/
def withinBlocks (T : Mat α) (pairs : List (Nat × Nat)) (R : Mat α) : Mat α :=
  pairs.foldl (blockStep T) R

/-- The external triangular Sylvester solver `ztrsyl(Rii, Rjj, S)`; it returns
`(x, scale, info)` and is a trusted collaborator (a LAPACK import), hence a
parameter of the embedding. -/
def Ztrsyl (α : Type) : Type := Mat α → Mat α → Mat α → Mat α × α × Int

/-- A numpy slice `M[r0:r1, c0:c1]` as a finite 0-based view, 0-padded. -/
def slice (M : Mat α) (r0 r1 c0 c1 : Nat) : Mat α :=
  fun a b => if a < r1 - r0 ∧ b < c1 - c0 then M (r0 + a) (c0 + b) else 0

/-- Lines 85-88: the right-hand side `S = T[istart:istop, jstart:jstop]`, with
the coupling through the intermediate columns `istop:jstart` subtracted when
the `couple` guard (`j - i > 1`) holds. -/
def rhsS (T R : Mat α) (istart istop jstart jstop : Nat) (couple : Bool) : Mat α :=
  fun a b =>
    if a < istop - istart ∧ b < jstop - jstart then
      T (istart + a) (jstart + b) -
        (if couple then
            ((List.range' istop (jstart - istop)).map
              (fun k => R (istart + a) k * R k (jstart + b))).sum
          else 0)
    else 0

/-- Lines 84-97: body of the between-block loop for the pair of block indices
`(i, j)`: form `S`, call `ztrsyl(Rii, Rjj, S)`, and store `x * scale` into the
rectangle `R[istart:istop, jstart:jstop]`. -/
def betweenStep (zt : Ztrsyl α) (T : Mat α) (pairs : List (Nat × Nat)) (j : Nat)
    (R : Mat α) (i : Nat) : Mat α :=
  let ip := pairs.getD i (0, 0)
  let jp := pairs.getD j (0, 0)
  let S := rhsS T R ip.1 ip.2 jp.1 jp.2 (decide (j - i > 1))
  let res := zt (slice R ip.1 ip.2 ip.1 ip.2) (slice R jp.1 jp.2 jp.1 jp.2) S
  fun a b =>
    if ip.1 ≤ a ∧ a < ip.2 ∧ jp.1 ≤ b ∧ b < jp.2 then
      res.1 (a - ip.1) (b - jp.1) * res.2.1
    else R a b

/-- Lines 81-97: `for j in range(nblocks): for i in range(j-1, -1, -1)`. -/
def betweenLoop (zt : Ztrsyl α) (T : Mat α) (pairs : List (Nat × Nat))
    (nblocks : Nat) (R : Mat α) : Mat α :=
  (List.range nblocks).foldl
    (fun S j => ((List.range' 0 j).reverse).foldl (betweenStep zt T pairs j) S) R

/-- The accumulator produced by the two loop phases from the seeded diagonal. -/
def withinResult (sq : α → α) (T : Mat α) (n blocksize : Nat) : Mat α :=
  withinBlocks T (start_stop_pairs n blocksize) (seedDiag sq T n)

/-- The final accumulator returned by the engine. -/
def engineResult (sq : α → α) (zt : Ztrsyl α) (T : Mat α) (n blocksize : Nat) : Mat α :=
  betweenLoop zt T (start_stop_pairs n blocksize) (nblocksOf n blocksize)
    (withinResult sq T n blocksize)

/-- Lines 21-100: `_sqrtm_triu(T, blocksize)`.  Returns `none` exactly when the
defensive check `nsmall * bsmall + nlarge * blarge != n` (lines 61-62) fires,
modelling `raise Exception('internal inconsistency')`. -/
def _sqrtm_triu (sq : α → α) (zt : Ztrsyl α) (T : Mat α) (n blocksize : Nat) :
    Option (Mat α) :=
  if nsmallOf n blocksize * bsmallOf n blocksize
      + nlargeOf n blocksize * blargeOf n blocksize ≠ n then none
  else some (engineResult sq zt T n blocksize)

end SqrtmPy

namespace SqrtmPy

/-! ### Partition arithmetic -/

theorem nblocksOf_pos (n blocksize : Nat) : 0 < nblocksOf n blocksize :=
  lt_of_lt_of_le Nat.zero_lt_one (le_max_right _ 1)

theorem nlargeOf_lt (n blocksize : Nat) : nlargeOf n blocksize < nblocksOf n blocksize :=
  Nat.mod_lt _ (nblocksOf_pos n blocksize)

/-- Arithmetic core of the defensive check, for any positive block count. -/
theorem split_sum (n nb : Nat) (h : 0 < nb) :
    (nb - n % nb) * (n / nb) + n % nb * (n / nb + 1) = n := by
  have hmod : nb * (n / nb) + n % nb = n := Nat.div_add_mod n nb
  have hlt : n % nb < nb := Nat.mod_lt n h
  have h2 : (nb - n % nb) * (n / nb) = nb * (n / nb) - n % nb * (n / nb) :=
    Nat.sub_mul _ _ _
  have h3 : n % nb * (n / nb) ≤ nb * (n / nb) :=
    Nat.mul_le_mul_right _ (le_of_lt hlt)
  have h4 : n % nb * (n / nb + 1) = n % nb * (n / nb) + n % nb := by ring
  omega

/-- The defensive partition identity: `nsmall * bsmall + nlarge * blarge = n`. -/
theorem partition_sum (n blocksize : Nat) :
    nsmallOf n blocksize * bsmallOf n blocksize
      + nlargeOf n blocksize * blargeOf n blocksize = n := by
  unfold nsmallOf blargeOf bsmallOf nlargeOf
  exact split_sum n _ (nblocksOf_pos n blocksize)

theorem addBlocks_eq (size : Nat) :
    ∀ (count : Nat) (acc : List (Nat × Nat)) (start : Nat),
      addBlocks (acc, start) (count, size)
        = (acc ++ evenBlocks start count size, start + size * count) := by
  intro count
  induction count with
  | zero => intro acc start; simp [addBlocks, evenBlocks]
  | succ c ih =>
    intro acc start
    unfold addBlocks at ih ⊢
    rw [List.range_succ, List.foldl_append]
    rw [ih acc start]
    simp only [List.foldl_cons, List.foldl_nil]
    simp [evenBlocks, List.range_succ, Nat.mul_succ, Nat.add_assoc,
      List.append_assoc]

theorem start_stop_pairs_eq (n blocksize : Nat) :
    start_stop_pairs n blocksize
      = evenBlocks 0 (nsmallOf n blocksize) (bsmallOf n blocksize)
        ++ evenBlocks (bsmallOf n blocksize * nsmallOf n blocksize)
            (nlargeOf n blocksize) (blargeOf n blocksize) := by
  unfold start_stop_pairs
  rw [List.foldl_cons, List.foldl_cons, List.foldl_nil]
  rw [addBlocks_eq, addBlocks_eq]
  simp

theorem evenBlocks_sizes (start count size : Nat) :
    (evenBlocks start count size).map (fun p => p.2 - p.1)
      = List.replicate count size := by
  unfold evenBlocks
  rw [List.map_map]
  have h : ((fun p : Nat × Nat => p.2 - p.1) ∘
      fun k => (start + size * k, start + size * (k + 1))) = fun _ => size := by
    funext k
    simp only [Function.comp_apply, Nat.mul_succ]
    omega
  rw [h]
  rw [show (fun _ : Nat => size) = Function.const Nat size from rfl]
  rw [List.map_const, List.length_range]

theorem evenBlocks_flatten (start count size : Nat) :
    ((evenBlocks start count size).map (fun p => List.range' p.1 (p.2 - p.1))).flatten
      = List.range' start (size * count) := by
  induction count with
  | zero => simp [evenBlocks]
  | succ c ih =>
    unfold evenBlocks at ih ⊢
    rw [List.range_succ, List.map_append, List.map_append, List.flatten_append, ih]
    simp only [List.map_cons, List.map_nil, List.flatten_cons, List.flatten_nil,
      List.append_nil]
    have h1 : start + size * (c + 1) - (start + size * c) = size := by
      simp only [Nat.mul_succ]; omega
    rw [h1]
    rw [List.range'_append_1]
    have h2 : size + size * c = size * (c + 1) := by ring
    rw [h2]

theorem pairs_sizes (n blocksize : Nat) :
    (start_stop_pairs n blocksize).map (fun p => p.2 - p.1)
      = List.replicate (nsmallOf n blocksize) (bsmallOf n blocksize)
        ++ List.replicate (nlargeOf n blocksize) (blargeOf n blocksize) := by
  rw [start_stop_pairs_eq, List.map_append, evenBlocks_sizes, evenBlocks_sizes]

theorem pairs_flatten (n blocksize : Nat) :
    ((start_stop_pairs n blocksize).map
        (fun p => List.range' p.1 (p.2 - p.1))).flatten = List.range n := by
  rw [start_stop_pairs_eq, List.map_append, List.flatten_append,
    evenBlocks_flatten, evenBlocks_flatten]
  have key : List.range' 0 (bsmallOf n blocksize * nsmallOf n blocksize)
      ++ List.range' (bsmallOf n blocksize * nsmallOf n blocksize)
          (blargeOf n blocksize * nlargeOf n blocksize)
      = List.range' 0 (blargeOf n blocksize * nlargeOf n blocksize
          + bsmallOf n blocksize * nsmallOf n blocksize) := by
    have h := List.range'_append_1 0 (bsmallOf n blocksize * nsmallOf n blocksize)
      (blargeOf n blocksize * nlargeOf n blocksize)
    simpa using h
  rw [key]
  have hsum : blargeOf n blocksize * nlargeOf n blocksize
      + bsmallOf n blocksize * nsmallOf n blocksize = n := by
    have h := partition_sum n blocksize
    have c1 : bsmallOf n blocksize * nsmallOf n blocksize
        = nsmallOf n blocksize * bsmallOf n blocksize := Nat.mul_comm _ _
    have c2 : blargeOf n blocksize * nlargeOf n blocksize
        = nlargeOf n blocksize * blargeOf n blocksize := Nat.mul_comm _ _
    omega
  rw [hsum, List.range_eq_range']

theorem pairs_length (n blocksize : Nat) :
    (start_stop_pairs n blocksize).length = nblocksOf n blocksize := by
  rw [start_stop_pairs_eq]
  simp only [List.length_append, evenBlocks, List.length_map, List.length_range]
  have := nlargeOf_lt n blocksize
  unfold nsmallOf
  omega

theorem evenBlocks_mem {s c z : Nat} {p : Nat × Nat} (hp : p ∈ evenBlocks s c z) :
    ∃ k, k < c ∧ p = (s + z * k, s + z * (k + 1)) := by
  rcases List.mem_map.1 hp with ⟨k, hk, rfl⟩
  exact ⟨k, List.mem_range.1 hk, rfl⟩

theorem evenBlocks_mem_bounds {s c z : Nat} {p : Nat × Nat}
    (hp : p ∈ evenBlocks s c z) :
    s ≤ p.1 ∧ p.1 ≤ p.2 ∧ p.2 ≤ s + z * c := by
  rcases evenBlocks_mem hp with ⟨k, hk, rfl⟩
  have h1 : z * k ≤ z * (k + 1) := Nat.mul_le_mul_left z (by omega)
  have h2 : z * (k + 1) ≤ z * c := Nat.mul_le_mul_left z (by omega)
  simp only
  omega

theorem evenBlocks_chain (s c z : Nat) :
    List.Pairwise (fun p q : Nat × Nat => p.2 ≤ q.1) (evenBlocks s c z) := by
  unfold evenBlocks
  rw [List.pairwise_map]
  apply (List.pairwise_lt_range c).imp
  intro a b hab
  simp only
  have h1 : z * (a + 1) ≤ z * b := Nat.mul_le_mul_left z (by omega)
  omega

/-- The listed blocks are ordered: each stops no later than the next starts. -/
theorem pairs_chain (n blocksize : Nat) :
    List.Pairwise (fun p q : Nat × Nat => p.2 ≤ q.1) (start_stop_pairs n blocksize) := by
  rw [start_stop_pairs_eq]
  rw [List.pairwise_append]
  refine ⟨evenBlocks_chain _ _ _, evenBlocks_chain _ _ _, ?_⟩
  intro p hp q hq
  have h1 := (evenBlocks_mem_bounds hp).2.2
  have h2 := (evenBlocks_mem_bounds hq).1
  simp only [Nat.zero_add] at h1
  have hc : bsmallOf n blocksize * nsmallOf n blocksize
      = nsmallOf n blocksize * bsmallOf n blocksize := Nat.mul_comm _ _
  omega

/-- Every listed block `(start, stop)` has `start ≤ stop ≤ n`. -/
theorem pairs_mem_bounds (n blocksize : Nat) {p : Nat × Nat}
    (hp : p ∈ start_stop_pairs n blocksize) : p.1 ≤ p.2 ∧ p.2 ≤ n := by
  have hsum := partition_sum n blocksize
  rw [start_stop_pairs_eq] at hp
  rcases List.mem_append.1 hp with h | h
  · have := evenBlocks_mem_bounds h
    have hc : bsmallOf n blocksize * nsmallOf n blocksize
        = nsmallOf n blocksize * bsmallOf n blocksize := Nat.mul_comm _ _
    simp only [Nat.zero_add] at this
    omega
  · have := evenBlocks_mem_bounds h
    have hc1 : bsmallOf n blocksize * nsmallOf n blocksize
        = nsmallOf n blocksize * bsmallOf n blocksize := Nat.mul_comm _ _
    have hc2 : blargeOf n blocksize * nlargeOf n blocksize
        = nlargeOf n blocksize * blargeOf n blocksize := Nat.mul_comm _ _
    omega

theorem pairs_chain_getD (n blocksize : Nat) {u v : Nat} (huv : u < v)
    (hv : v < (start_stop_pairs n blocksize).length) :
    ((start_stop_pairs n blocksize).getD u (0, 0)).2
      ≤ ((start_stop_pairs n blocksize).getD v (0, 0)).1 := by
  have hu : u < (start_stop_pairs n blocksize).length := lt_trans huv hv
  have h := (List.pairwise_iff_get.1 (pairs_chain n blocksize)) ⟨u, hu⟩ ⟨v, hv⟩ huv
  rw [List.getD_eq_getElem _ _ hu, List.getD_eq_getElem _ _ hv]
  simpa [List.get_eq_getElem] using h

theorem pairs_getD_bounds (n blocksize : Nat) {k : Nat}
    (hk : k < (start_stop_pairs n blocksize).length) :
    ((start_stop_pairs n blocksize).getD k (0, 0)).1
        ≤ ((start_stop_pairs n blocksize).getD k (0, 0)).2
      ∧ ((start_stop_pairs n blocksize).getD k (0, 0)).2 ≤ n := by
  rw [List.getD_eq_getElem _ _ hk]
  exact pairs_mem_bounds n blocksize (List.getElem_mem hk)

/-- Every index below `n` lies in some listed block. -/
theorem exists_block (n blocksize : Nat) {x : Nat} (hx : x < n) :
    ∃ k, k < (start_stop_pairs n blocksize).length
      ∧ ((start_stop_pairs n blocksize).getD k (0, 0)).1 ≤ x
      ∧ x < ((start_stop_pairs n blocksize).getD k (0, 0)).2 := by
  have hmem : x ∈ List.range n := List.mem_range.2 hx
  rw [← pairs_flatten n blocksize] at hmem
  rcases List.mem_flatten.1 hmem with ⟨l, hl, hxl⟩
  rcases List.mem_map.1 hl with ⟨p, hp, rfl⟩
  have hb := List.mem_range'_1.1 hxl
  have hple := (pairs_mem_bounds n blocksize hp).1
  rcases List.mem_iff_getElem.1 hp with ⟨k, hk, hpk⟩
  refine ⟨k, hk, ?_⟩
  rw [List.getD_eq_getElem _ _ hk, hpk]
  omega

/-- Distinct listed blocks have disjoint index ranges. -/
theorem block_disjoint (n blocksize : Nat) {u v x : Nat}
    (hu : u < (start_stop_pairs n blocksize).length)
    (hv : v < (start_stop_pairs n blocksize).length) (hne : u ≠ v)
    (h1 : ((start_stop_pairs n blocksize).getD u (0, 0)).1 ≤ x)
    (h2 : x < ((start_stop_pairs n blocksize).getD u (0, 0)).2)
    (h3 : ((start_stop_pairs n blocksize).getD v (0, 0)).1 ≤ x)
    (h4 : x < ((start_stop_pairs n blocksize).getD v (0, 0)).2) : False := by
  rcases Nat.lt_or_ge u v with h | h
  · have := pairs_chain_getD n blocksize h hv
    omega
  · have hvu : v < u := by omega
    have := pairs_chain_getD n blocksize hvu hu
    omega

/-! ### Claims about the partition and the degenerate cases -/

/-- Claim C4: for every `N ≥ 1` and `blocksize ≥ 1` the engine builds
`nblocks = max(N div blocksize, 1) ≥ 1` contiguous blocks; the listed sizes are
`nblocks - N mod nblocks` copies of `floor(N/nblocks)` followed by
`N mod nblocks` copies of `floor(N/nblocks) + 1` (larger blocks after smaller);
the concatenation of the half-open ranges is exactly `[0, N)` (contiguous,
non-overlapping, covering — so the sizes sum to `N`). -/
theorem C4_partition (n blocksize : Nat) (hn : 1 ≤ n) (hb : 1 ≤ blocksize) :
    1 ≤ nblocksOf n blocksize
    ∧ nblocksOf n blocksize = max (n / blocksize) 1
    ∧ (start_stop_pairs n blocksize).length = nblocksOf n blocksize
    ∧ (start_stop_pairs n blocksize).map (fun p => p.2 - p.1)
        = List.replicate (nblocksOf n blocksize - n % nblocksOf n blocksize)
            (n / nblocksOf n blocksize)
          ++ List.replicate (n % nblocksOf n blocksize)
              (n / nblocksOf n blocksize + 1)
    ∧ ((start_stop_pairs n blocksize).map
          (fun p => List.range' p.1 (p.2 - p.1))).flatten = List.range n
    ∧ ((start_stop_pairs n blocksize).map (fun p => p.2 - p.1)).sum = n := by
  refine ⟨nblocksOf_pos n blocksize, rfl, pairs_length n blocksize, ?_, pairs_flatten n blocksize, ?_⟩
  · have h := pairs_sizes n blocksize
    simpa [nsmallOf, nlargeOf, bsmallOf, blargeOf] using h
  · rw [pairs_sizes n blocksize]
    rw [List.sum_append, List.sum_replicate, List.sum_replicate, smul_eq_mul, smul_eq_mul]
    exact partition_sum n blocksize

/-- Witness for C4 at `N = 5`, `blocksize = 2`. -/
theorem C4_partition_witness :
    (1 ≤ 5 ∧ 1 ≤ 2)
    ∧ (start_stop_pairs 5 2).length = nblocksOf 5 2
    ∧ ((start_stop_pairs 5 2).map (fun p => p.2 - p.1)).sum = 5 :=
  ⟨by decide, (C4_partition 5 2 (by decide) (by decide)).2.2.1,
    (C4_partition 5 2 (by decide) (by decide)).2.2.2.2.2⟩

/-- Claim C7: for every `N` and `blocksize ≥ 1` the engine's internal
consistency check `nsmall * bsmall + nlarge * blarge == n` holds, so the
`raise Exception('internal inconsistency')` branch is unreachable and
`_sqrtm_triu` always returns a result. -/
theorem C7_check_unreachable (n blocksize : Nat) (hb : 1 ≤ blocksize) :
    nsmallOf n blocksize * bsmallOf n blocksize
        + nlargeOf n blocksize * blargeOf n blocksize = n
    ∧ ∀ {α : Type} [Field α] (sq : α → α) (zt : Ztrsyl α) (T : Mat α),
        (_sqrtm_triu sq zt T n blocksize).isSome = true := by
  refine ⟨partition_sum n blocksize, ?_⟩
  intro α _ sq zt T
  unfold _sqrtm_triu
  simp [partition_sum n blocksize]

/-- Witness for C7 at `N = 3`, `blocksize = 64`, over `ℚ`. -/
theorem C7_check_unreachable_witness :
    (1 ≤ 64 ∧ nsmallOf 3 64 * bsmallOf 3 64 + nlargeOf 3 64 * blargeOf 3 64 = 3)
    ∧ (_sqrtm_triu (α := ℚ) id (fun _ _ S => (S, 1, 0)) (fun _ _ => 0) 3 64).isSome
        = true :=
  ⟨⟨by decide, (C7_check_unreachable 3 64 (by decide)).1⟩,
    (C7_check_unreachable 3 64 (by decide)).2 id (fun _ _ S => (S, 1, 0)) (fun _ _ => 0)⟩

theorem nblocksOf_eq_one {n blocksize : Nat} (hn : 1 ≤ n) (hb : n ≤ blocksize) :
    nblocksOf n blocksize = 1 := by
  have hbpos : 0 < blocksize := lt_of_lt_of_le hn hb
  have h1 : n / blocksize ≤ 1 := by
    have h2 := Nat.div_le_div_right (c := blocksize) hb
    rwa [Nat.div_self hbpos] at h2
  unfold nblocksOf
  omega

theorem start_stop_pairs_single {n blocksize : Nat} (hn : 1 ≤ n) (hb : n ≤ blocksize) :
    start_stop_pairs n blocksize = [(0, n)] := by
  have h1 := nblocksOf_eq_one hn hb
  rw [start_stop_pairs_eq]
  simp [nsmallOf, nlargeOf, bsmallOf, blargeOf, h1, evenBlocks, Nat.mod_one,
    Nat.div_one, List.range_succ]

/-- Claim C9: when `blocksize ≥ N ≥ 1` the block count is exactly 1, the
partition is the single block `[0, N)`, the between-block phase is the
identity (so the external Sylvester solver is never invoked and the result
does not depend on it), and the engine's output is exactly the within-block
recurrence applied to the seeded diagonal on the single block. -/
theorem C9_single_block (n blocksize : Nat) (hn : 1 ≤ n) (hb : n ≤ blocksize) :
    nblocksOf n blocksize = 1
    ∧ start_stop_pairs n blocksize = [(0, n)]
    ∧ (∀ {α : Type} [Field α] (zt : Ztrsyl α) (T R : Mat α),
        betweenLoop zt T (start_stop_pairs n blocksize) (nblocksOf n blocksize) R = R)
    ∧ (∀ {α : Type} [Field α] (sq : α → α) (zt : Ztrsyl α) (T : Mat α),
        _sqrtm_triu sq zt T n blocksize
          = some (withinBlocks T [(0, n)] (seedDiag sq T n))) := by
  have h1 := nblocksOf_eq_one hn hb
  have h2 := start_stop_pairs_single hn hb
  have hloop : ∀ {α : Type} [Field α] (zt : Ztrsyl α) (T R : Mat α),
      betweenLoop zt T (start_stop_pairs n blocksize) (nblocksOf n blocksize) R = R := by
    intro α _ zt T R
    rw [h1]
    unfold betweenLoop
    simp [List.range_succ]
  refine ⟨h1, h2, hloop, ?_⟩
  intro α _ sq zt T
  unfold _sqrtm_triu
  simp only [partition_sum n blocksize, ne_eq, not_true_eq_false, if_false,
    reduceIte]
  unfold engineResult withinResult
  rw [hloop, h2]

/-- Witness for C9 at `N = 2`, `blocksize = 3`, over `ℚ`. -/
theorem C9_single_block_witness :
    (1 ≤ 2 ∧ 2 ≤ 3) ∧ nblocksOf 2 3 = 1 ∧ start_stop_pairs 2 3 = [(0, 2)] :=
  ⟨by decide, (C9_single_block 2 3 (by decide) (by decide)).1,
    (C9_single_block 2 3 (by decide) (by decide)).2.1⟩

/-- Claim C10: on the empty `0 × 0` input and any `blocksize ≥ 1` the engine
runs without error (the consistency check passes) and returns the `0 × 0`
(identically zero) accumulator; the result is independent of the Sylvester
solver and the square-root primitive never contributes an entry. -/
theorem C10_empty {α : Type} [Field α] (blocksize : Nat) (hb : 1 ≤ blocksize)
    (sq : α → α) (zt : Ztrsyl α) (T : Mat α) :
    _sqrtm_triu sq zt T 0 blocksize = some (fun _ _ => (0 : α)) := by
  have h1 : nblocksOf 0 blocksize = 1 := by
    unfold nblocksOf
    simp [Nat.zero_div]
  have h2 : start_stop_pairs 0 blocksize = [(0, 0)] := by
    rw [start_stop_pairs_eq]
    simp [nsmallOf, nlargeOf, bsmallOf, blargeOf, h1, evenBlocks, List.range_succ]
  unfold _sqrtm_triu
  simp only [partition_sum 0 blocksize, ne_eq, not_true_eq_false, if_false,
    reduceIte]
  unfold engineResult withinResult
  rw [h1, h2]
  unfold betweenLoop
  simp only [List.range_succ, List.range_zero, List.nil_append, List.foldl_cons,
    List.foldl_nil, List.range'_zero, List.reverse_nil]
  unfold withinBlocks blockStep
  simp only [List.foldl_cons, List.foldl_nil]
  have h4 : List.range' 0 (0 - 0) = ([] : List Nat) := rfl
  rw [h4]
  simp only [List.foldl_nil]
  congr 1
  funext i j
  unfold seedDiag
  simp

/-- Witness for C10 at `blocksize = 1`, over `ℚ`. -/
theorem C10_empty_witness :
    (1 ≤ 1 : Prop)
    ∧ _sqrtm_triu (α := ℚ) id (fun _ _ S => (S, 1, 0)) (fun _ _ => 0) 0 1
        = some (fun _ _ => 0) :=
  ⟨by decide, C10_empty 1 (by decide) id (fun _ _ S => (S, 1, 0)) (fun _ _ => 0)⟩

/-! ### Within-block phase: frame and recurrence invariants -/

variable {α : Type} [Field α]

theorem colStep_ne {T R : Mat α} {j i p q : Nat} (h : ¬(p = i ∧ q = j)) :
    colStep T j R i p q = R p q := by
  unfold colStep updEntry
  simp [h]

/-- The descending row loop of column `j`, truncated to the bottom `c` rows of
the block starting at `a`. -/
def colLoopN (T : Mat α) (j a c : Nat) (R : Mat α) : Mat α :=
  ((List.range' a c).reverse).foldl (colStep T j) R

theorem colLoop_eq_colLoopN (T : Mat α) (a : Nat) (R : Mat α) (j : Nat) :
    colLoop T a R j = colLoopN T j a (j - a) R := rfl

theorem colLoopN_succ (T : Mat α) (j a c : Nat) (R : Mat α) :
    colLoopN T j a (c + 1) R = colLoopN T j a c (colStep T j R (a + c)) := by
  unfold colLoopN
  rw [List.range'_concat, List.reverse_append]
  simp

/-- Descending inner loop: only the entries `(i, j)` with `a ≤ i < a + c` are
written, and each one satisfies the recurrence with every read taken from the
final state of the loop. -/
theorem colLoopN_spec (T : Mat α) (j a : Nat) :
    ∀ (c : Nat) (R : Mat α), a + c ≤ j →
      (∀ p q : Nat, ¬(a ≤ p ∧ p < a + c ∧ q = j) →
          colLoopN T j a c R p q = R p q)
      ∧ (∀ i : Nat, a ≤ i → i < a + c →
          colLoopN T j a c R i j
            = (T i j - (if j - i > 1 then corrSum (colLoopN T j a c R) i j else 0))
              / (colLoopN T j a c R i i + colLoopN T j a c R j j)) := by
  intro c
  induction c with
  | zero =>
    intro R _
    exact ⟨fun p q _ => rfl, fun i h1 h2 => by omega⟩
  | succ c ih =>
    intro R hc
    rw [colLoopN_succ]
    have hc2 : a + c ≤ j := by omega
    obtain ⟨ihA, ihB⟩ := ih (colStep T j R (a + c)) hc2
    constructor
    · intro p q h
      rw [ihA p q (by omega)]
      exact colStep_ne (by omega)
    · intro i h1 h2
      rcases Nat.lt_or_ge i (a + c) with hlt | hge
      · exact ihB i h1 hlt
      · have hi : i = a + c := by omega
        have hij : i < j := by omega
        have hdiag1 : colLoopN T j a c (colStep T j R (a + c)) i i
            = R i i := by
          rw [ihA i i (by omega)]
          exact colStep_ne (by omega)
        have hdiag2 : colLoopN T j a c (colStep T j R (a + c)) j j
            = R j j := by
          rw [ihA j j (by omega)]
          exact colStep_ne (by omega)
        have hcorr : corrSum (colLoopN T j a c (colStep T j R (a + c))) i j
            = corrSum R i j := by
          unfold corrSum
          congr 1
          apply List.map_congr_left
          intro k hk
          have hkb := List.mem_range'_1.1 hk
          have e1 : colLoopN T j a c (colStep T j R (a + c)) i k = R i k := by
            rw [ihA i k (by omega)]
            exact colStep_ne (by omega)
          have e2 : colLoopN T j a c (colStep T j R (a + c)) k j = R k j := by
            rw [ihA k j (by omega)]
            exact colStep_ne (by omega)
          rw [e1, e2]
        have hmain : colLoopN T j a c (colStep T j R (a + c)) i j
            = colStep T j R (a + c) i j := ihA i j (by omega)
        rw [hmain, hdiag1, hdiag2, hcorr, hi]
        unfold colStep updEntry
        simp

/-- The ascending column loop of a block, truncated to the first `c` columns. -/
def blockStepN (T : Mat α) (a c : Nat) (R : Mat α) : Mat α :=
  (List.range' a c).foldl (colLoop T a) R

theorem blockStep_eq_blockStepN (T : Mat α) (R : Mat α) (p : Nat × Nat) :
    blockStep T R p = blockStepN T p.1 (p.2 - p.1) R := rfl

theorem blockStepN_succ (T : Mat α) (a c : Nat) (R : Mat α) :
    blockStepN T a (c + 1) R = colLoop T a (blockStepN T a c R) (a + c) := by
  unfold blockStepN
  rw [List.range'_concat, List.foldl_append]
  simp

/-- Ascending column loop: only the strictly-upper entries of the block are
written, and each satisfies the recurrence with reads from the final state. -/
theorem blockStepN_spec (T : Mat α) (a : Nat) :
    ∀ (c : Nat) (R : Mat α),
      (∀ p q : Nat, ¬(a ≤ p ∧ p < q ∧ q < a + c) → blockStepN T a c R p q = R p q)
      ∧ (∀ i j : Nat, a ≤ i → i < j → j < a + c →
          blockStepN T a c R i j
            = (T i j - (if j - i > 1 then corrSum (blockStepN T a c R) i j else 0))
              / (blockStepN T a c R i i + blockStepN T a c R j j)) := by
  intro c
  induction c with
  | zero =>
    intro R
    exact ⟨fun p q _ => rfl, fun i j h1 h2 h3 => by omega⟩
  | succ c ih =>
    intro R
    rw [blockStepN_succ]
    obtain ⟨ihA, ihB⟩ := ih R
    rw [colLoop_eq_colLoopN]
    have hac : a + c - a = c := by omega
    rw [hac]
    obtain ⟨clA, clB⟩ := colLoopN_spec T (a + c) a c (blockStepN T a c R) (le_refl _)
    constructor
    · intro p q h
      rw [clA p q (by omega)]
      exact ihA p q (by omega)
    · intro i j h1 h2 h3
      rcases Nat.lt_or_ge j (a + c) with hlt | hge
      · -- an already-finished column: transfer its equation through the new column
        have hij : i < a + c := by omega
        have e0 : colLoopN T (a + c) a c (blockStepN T a c R) i j
            = blockStepN T a c R i j := clA i j (by omega)
        have e1 : colLoopN T (a + c) a c (blockStepN T a c R) i i
            = blockStepN T a c R i i := clA i i (by omega)
        have e2 : colLoopN T (a + c) a c (blockStepN T a c R) j j
            = blockStepN T a c R j j := clA j j (by omega)
        have hcorr : corrSum (colLoopN T (a + c) a c (blockStepN T a c R)) i j
            = corrSum (blockStepN T a c R) i j := by
          unfold corrSum
          congr 1
          apply List.map_congr_left
          intro k hk
          have hkb := List.mem_range'_1.1 hk
          have f1 : colLoopN T (a + c) a c (blockStepN T a c R) i k
              = blockStepN T a c R i k := clA i k (by omega)
          have f2 : colLoopN T (a + c) a c (blockStepN T a c R) k j
              = blockStepN T a c R k j := clA k j (by omega)
          rw [f1, f2]
        rw [e0, e1, e2, hcorr]
        exact ihB i j h1 h2 hlt
      · -- the new column j = a + c
        have hj : j = a + c := by omega
        subst hj
        exact clB i h1 (by omega)

/-- The whole within-block phase (all blocks): only strictly-upper entries
inside some block are written, and each written entry satisfies the scalar
recurrence with every read taken from the final state of the phase. -/
theorem withinBlocks_spec (T : Mat α) :
    ∀ (pairs : List (Nat × Nat)) (R : Mat α),
      List.Pairwise (fun p q : Nat × Nat => p.2 ≤ q.1) pairs →
      (∀ p ∈ pairs, p.1 ≤ p.2) →
      (∀ x y : Nat, (∀ p ∈ pairs, ¬(p.1 ≤ x ∧ x < y ∧ y < p.2)) →
          withinBlocks T pairs R x y = R x y)
      ∧ (∀ p ∈ pairs, ∀ i j : Nat, p.1 ≤ i → i < j → j < p.2 →
          withinBlocks T pairs R i j
            = (T i j - (if j - i > 1 then corrSum (withinBlocks T pairs R) i j else 0))
              / (withinBlocks T pairs R i i + withinBlocks T pairs R j j)) := by
  intro pairs
  induction pairs with
  | nil =>
    intro R _ _
    exact ⟨fun x y _ => rfl, fun p hp => absurd hp (List.not_mem_nil p)⟩
  | cons p rest ih =>
    intro R hpw hbnd
    have hhead : ∀ q ∈ rest, p.2 ≤ q.1 := (List.pairwise_cons.1 hpw).1
    have htail : List.Pairwise (fun p q : Nat × Nat => p.2 ≤ q.1) rest :=
      (List.pairwise_cons.1 hpw).2
    have hble : p.1 ≤ p.2 := hbnd p (List.mem_cons_self p rest)
    have hbtail : ∀ q ∈ rest, q.1 ≤ q.2 := fun q hq => hbnd q (List.mem_cons_of_mem p hq)
    have hW : withinBlocks T (p :: rest) R
        = withinBlocks T rest (blockStep T R p) := rfl
    obtain ⟨ihA, ihB⟩ := ih (blockStep T R p) htail hbtail
    rw [blockStep_eq_blockStepN] at ihA ihB
    obtain ⟨bsA, bsB⟩ := blockStepN_spec T p.1 (p.2 - p.1) R
    have hp2 : p.1 + (p.2 - p.1) = p.2 := by omega
    rw [hp2] at bsA bsB
    rw [hW, blockStep_eq_blockStepN]
    constructor
    · intro x y h
      have hx : ¬(p.1 ≤ x ∧ x < y ∧ y < p.2) := h p (List.mem_cons_self p rest)
      rw [ihA x y (fun q hq => h q (List.mem_cons_of_mem p hq))]
      exact bsA x y hx
    · intro q hq i j h1 h2 h3
      rcases List.mem_cons.1 hq with hq1 | hq2
      · -- the head block: its entries are untouched by the remaining blocks
        subst hq1
        have hfresh : ∀ u v : Nat, u < q.2 →
            withinBlocks T rest (blockStepN T q.1 (q.2 - q.1) R) u v
              = blockStepN T q.1 (q.2 - q.1) R u v := by
          intro u v hu
          apply ihA
          intro r hr
          have := hhead r hr
          omega
        have e0 := hfresh i j (by omega)
        have e1 := hfresh i i (by omega)
        have e2 := hfresh j j (by omega)
        have hcorr : corrSum (withinBlocks T rest (blockStepN T q.1 (q.2 - q.1) R)) i j
            = corrSum (blockStepN T q.1 (q.2 - q.1) R) i j := by
          unfold corrSum
          congr 1
          apply List.map_congr_left
          intro k hk
          have hkb := List.mem_range'_1.1 hk
          rw [hfresh i k (by omega), hfresh k j (by omega)]
        rw [e0, e1, e2, hcorr]
        exact bsB i j h1 h2 h3
      · exact ihB q hq2 i j h1 h2 h3

/-- Claim C5: after the diagonal seeding `R[i,i] = sqrt(T[i,i])`, the
within-block phase computes, for every block `[start, stop)` and every pair
`start ≤ i < j < stop`, the entry
`R[i,j] = (T[i,j] - s) / (R[i,i] + R[j,j])` where `s` is the inner product
`R[i, i+1:j] · R[i+1:j, j]` (and `s = 0` when `j - i ≤ 1`), all values read
from the final state of the phase; diagonal entries keep their seeded value. -/
theorem C5_within_recurrence {α : Type} [Field α] (sq : α → α) (T : Mat α)
    (n blocksize : Nat) (hb : 1 ≤ blocksize) :
    (∀ i : Nat, i < n → withinResult sq T n blocksize i i = sq (T i i))
    ∧ ∀ p ∈ start_stop_pairs n blocksize, ∀ i j : Nat, p.1 ≤ i → i < j → j < p.2 →
        withinResult sq T n blocksize i j
          = (T i j - (if j - i > 1 then corrSum (withinResult sq T n blocksize) i j else 0))
            / (withinResult sq T n blocksize i i + withinResult sq T n blocksize j j) := by
  have hpw := pairs_chain n blocksize
  have hbnd : ∀ p ∈ start_stop_pairs n blocksize, p.1 ≤ p.2 :=
    fun p hp => (pairs_mem_bounds n blocksize hp).1
  obtain ⟨wA, wB⟩ :=
    withinBlocks_spec T (start_stop_pairs n blocksize) (seedDiag sq T n) hpw hbnd
  constructor
  · intro i hi
    unfold withinResult
    rw [wA i i (fun p _ => by omega)]
    unfold seedDiag
    simp [hi]
  · exact wB

/-- Witness for C5 at `N = 3`, `blocksize = 1`, over `ℚ`: the diagonal of the
within-phase result is the seeded square root. -/
theorem C5_within_recurrence_witness :
    (1 ≤ 1 : Prop)
    ∧ ∀ i : Nat, i < 3 →
        withinResult (α := ℚ) id (fun _ _ => 0) 3 1 i i
          = id ((fun _ _ => (0 : ℚ)) i i) :=
  ⟨by decide, (C5_within_recurrence (α := ℚ) id (fun _ _ => 0) 3 1 (by decide)).1⟩

/-! ### Between-block phase: frame and Sylvester fixed-point invariants -/

/-- Start of the `k`-th listed block (0 when out of range). -/
def blkStart (pairs : List (Nat × Nat)) (k : Nat) : Nat := (pairs.getD k (0, 0)).1

/-- Stop of the `k`-th listed block (0 when out of range). -/
def blkStop (pairs : List (Nat × Nat)) (k : Nat) : Nat := (pairs.getD k (0, 0)).2

/-- The Sylvester-solver invocation made for the block pair `(u, v)` on state
`M`: `ztrsyl(Rii, Rjj, S)` with `Rii`, `Rjj` the diagonal blocks and `S` the
right-hand side of lines 85-88. -/
def sylCall (zt : Ztrsyl α) (T : Mat α) (pairs : List (Nat × Nat)) (M : Mat α)
    (u v : Nat) : Mat α × α × Int :=
  zt (slice M (blkStart pairs u) (blkStop pairs u) (blkStart pairs u) (blkStop pairs u))
    (slice M (blkStart pairs v) (blkStop pairs v) (blkStart pairs v) (blkStop pairs v))
    (rhsS T M (blkStart pairs u) (blkStop pairs u) (blkStart pairs v) (blkStop pairs v)
      (decide (v - u > 1)))

/-- The claim of the between-block phase for the pair `(u, v)`: the rectangle
`R[block_u rows, block_v cols]` holds `x * scale` for `(x, scale, info)` the
Sylvester call computed from the same state. -/
def blockEq (zt : Ztrsyl α) (T : Mat α) (pairs : List (Nat × Nat)) (M : Mat α)
    (u v : Nat) : Prop :=
  ∀ a b : Nat, a < blkStop pairs u - blkStart pairs u →
    b < blkStop pairs v - blkStart pairs v →
    M (blkStart pairs u + a) (blkStart pairs v + b)
      = (sylCall zt T pairs M u v).1 a b * (sylCall zt T pairs M u v).2.1

theorem betweenStep_apply (zt : Ztrsyl α) (T : Mat α) (pairs : List (Nat × Nat))
    (j : Nat) (R : Mat α) (i a b : Nat) :
    betweenStep zt T pairs j R i a b
      = if blkStart pairs i ≤ a ∧ a < blkStop pairs i
            ∧ blkStart pairs j ≤ b ∧ b < blkStop pairs j then
          (sylCall zt T pairs R i j).1 (a - blkStart pairs i) (b - blkStart pairs j)
            * (sylCall zt T pairs R i j).2.1
        else R a b := rfl

theorem betweenStep_frame {zt : Ztrsyl α} {T : Mat α} {pairs : List (Nat × Nat)}
    {j : Nat} {R : Mat α} {i a b : Nat}
    (h : ¬(blkStart pairs i ≤ a ∧ a < blkStop pairs i
        ∧ blkStart pairs j ≤ b ∧ b < blkStop pairs j)) :
    betweenStep zt T pairs j R i a b = R a b := by
  rw [betweenStep_apply]
  exact if_neg h

/-- The Sylvester call only reads the two diagonal blocks, the block-row of
`u` against the intermediate columns, and the intermediate rows against the
block-column of `v`; states agreeing there produce the same call. -/
theorem sylCall_congr (zt : Ztrsyl α) (T : Mat α) (pairs : List (Nat × Nat))
    (u v : Nat) {M₁ M₂ : Mat α}
    (h1 : ∀ x y : Nat, blkStart pairs u ≤ x → x < blkStop pairs u →
        blkStart pairs u ≤ y → y < blkStop pairs u → M₁ x y = M₂ x y)
    (h2 : ∀ x y : Nat, blkStart pairs v ≤ x → x < blkStop pairs v →
        blkStart pairs v ≤ y → y < blkStop pairs v → M₁ x y = M₂ x y)
    (h3 : ∀ x y : Nat, blkStart pairs u ≤ x → x < blkStop pairs u →
        blkStop pairs u ≤ y → y < blkStart pairs v → M₁ x y = M₂ x y)
    (h4 : ∀ x y : Nat, blkStop pairs u ≤ x → x < blkStart pairs v →
        blkStart pairs v ≤ y → y < blkStop pairs v → M₁ x y = M₂ x y) :
    sylCall zt T pairs M₁ u v = sylCall zt T pairs M₂ u v := by
  unfold sylCall
  have e1 : slice M₁ (blkStart pairs u) (blkStop pairs u) (blkStart pairs u)
      (blkStop pairs u)
      = slice M₂ (blkStart pairs u) (blkStop pairs u) (blkStart pairs u)
        (blkStop pairs u) := by
    funext a b
    unfold slice
    split_ifs with h
    · exact h1 _ _ (Nat.le_add_right _ _) (by omega) (Nat.le_add_right _ _) (by omega)
    · rfl
  have e2 : slice M₁ (blkStart pairs v) (blkStop pairs v) (blkStart pairs v)
      (blkStop pairs v)
      = slice M₂ (blkStart pairs v) (blkStop pairs v) (blkStart pairs v)
        (blkStop pairs v) := by
    funext a b
    unfold slice
    split_ifs with h
    · exact h2 _ _ (Nat.le_add_right _ _) (by omega) (Nat.le_add_right _ _) (by omega)
    · rfl
  have e3 : rhsS T M₁ (blkStart pairs u) (blkStop pairs u) (blkStart pairs v)
      (blkStop pairs v) (decide (v - u > 1))
      = rhsS T M₂ (blkStart pairs u) (blkStop pairs u) (blkStart pairs v)
        (blkStop pairs v) (decide (v - u > 1)) := by
    funext a b
    unfold rhsS
    split_ifs with h hc
    · congr 1
      congr 1
      apply List.map_congr_left
      intro k hk
      have hkb := List.mem_range'_1.1 hk
      have hk2 : blkStop pairs u ≤ k ∧ k < blkStart pairs v := by omega
      rw [h3 _ _ (Nat.le_add_right _ _) (by omega) hk2.1 hk2.2,
        h4 _ _ hk2.1 hk2.2 (Nat.le_add_right _ _) (by omega)]
    · rfl
    · rfl
  rw [e1, e2, e3]

/-- A between-block step for pair `(i, j)` (processed later in the mandated
order) does not disturb an already-established block equation `(u, v)`. -/
theorem blockEq_preserved (n blocksize : Nat) (zt : Ztrsyl α) (T : Mat α)
    {u v i j : Nat} (M : Mat α)
    (hj : j < (start_stop_pairs n blocksize).length)
    (hij : i < j) (huv : u < v) (hvj : v ≤ j)
    (horder : v < j ∨ (v = j ∧ i < u))
    (heq : blockEq zt T (start_stop_pairs n blocksize) M u v) :
    blockEq zt T (start_stop_pairs n blocksize)
      (betweenStep zt T (start_stop_pairs n blocksize) j M i) u v := by
  have hv_len : v < (start_stop_pairs n blocksize).length := lt_of_le_of_lt hvj hj
  have hu_len : u < (start_stop_pairs n blocksize).length := lt_trans huv hv_len
  have hbu : blkStart (start_stop_pairs n blocksize) u
        ≤ blkStop (start_stop_pairs n blocksize) u :=
    (pairs_getD_bounds n blocksize hu_len).1
  have hbv : blkStart (start_stop_pairs n blocksize) v
        ≤ blkStop (start_stop_pairs n blocksize) v :=
    (pairs_getD_bounds n blocksize hv_len).1
  have hchuv : blkStop (start_stop_pairs n blocksize) u
        ≤ blkStart (start_stop_pairs n blocksize) v :=
    pairs_chain_getD n blocksize huv hv_len
  rcases horder with hvlt | ⟨hveq, hiu⟩
  · -- pair (i, j) writes columns of block j; all positions of (u, v) have
    -- column index below the stop of block v ≤ start of block j
    have hchvj : blkStop (start_stop_pairs n blocksize) v
          ≤ blkStart (start_stop_pairs n blocksize) j :=
      pairs_chain_getD n blocksize hvlt hj
    have hagree : ∀ x y : Nat, y < blkStop (start_stop_pairs n blocksize) v →
        betweenStep zt T (start_stop_pairs n blocksize) j M i x y = M x y := by
      intro x y hy
      exact betweenStep_frame (by omega)
    have hcall : sylCall zt T (start_stop_pairs n blocksize)
          (betweenStep zt T (start_stop_pairs n blocksize) j M i) u v
        = sylCall zt T (start_stop_pairs n blocksize) M u v := by
      apply sylCall_congr
      · intro x y _ _ _ hy; exact hagree x y (by omega)
      · intro x y _ _ _ hy; exact hagree x y (by omega)
      · intro x y _ _ _ hy; exact hagree x y (by omega)
      · intro x y _ _ _ hy; exact hagree x y (by omega)
    intro a b ha hb
    rw [hcall, hagree _ _ (by omega)]
    exact heq a b ha hb
  · -- pair (i, j) with v = j and i < u writes rows of block i; all positions
    -- of (u, v) have row index at least the start of block u > stop of block i
    subst hveq
    have hchiu : blkStop (start_stop_pairs n blocksize) i
          ≤ blkStart (start_stop_pairs n blocksize) u :=
      pairs_chain_getD n blocksize hiu hu_len
    have hagree : ∀ x y : Nat, blkStart (start_stop_pairs n blocksize) u ≤ x →
        betweenStep zt T (start_stop_pairs n blocksize) v M i x y = M x y := by
      intro x y hx
      exact betweenStep_frame (by omega)
    have hcall : sylCall zt T (start_stop_pairs n blocksize)
          (betweenStep zt T (start_stop_pairs n blocksize) v M i) u v
        = sylCall zt T (start_stop_pairs n blocksize) M u v := by
      apply sylCall_congr
      · intro x y hx _ _ _; exact hagree x y hx
      · intro x y hx _ _ _; exact hagree x y (by omega)
      · intro x y hx _ _ _; exact hagree x y hx
      · intro x y hx _ _ _; exact hagree x y (by omega)
    intro a b ha hb
    rw [hcall, hagree _ _ (by omega)]
    exact heq a b ha hb

/-- Right after the between-block step for pair `(i, j)` runs, the block
equation for `(i, j)` holds: the step writes exactly `x * scale` of the
Sylvester call whose inputs it does not overwrite. -/
theorem blockEq_established (n blocksize : Nat) (zt : Ztrsyl α) (T : Mat α)
    {i j : Nat} (M : Mat α)
    (hj : j < (start_stop_pairs n blocksize).length) (hij : i < j) :
    blockEq zt T (start_stop_pairs n blocksize)
      (betweenStep zt T (start_stop_pairs n blocksize) j M i) i j := by
  have hi_len : i < (start_stop_pairs n blocksize).length := lt_trans hij hj
  have hbi : blkStart (start_stop_pairs n blocksize) i
        ≤ blkStop (start_stop_pairs n blocksize) i :=
    (pairs_getD_bounds n blocksize hi_len).1
  have hbj : blkStart (start_stop_pairs n blocksize) j
        ≤ blkStop (start_stop_pairs n blocksize) j :=
    (pairs_getD_bounds n blocksize hj).1
  have hch : blkStop (start_stop_pairs n blocksize) i
        ≤ blkStart (start_stop_pairs n blocksize) j :=
    pairs_chain_getD n blocksize hij hj
  have hcall : sylCall zt T (start_stop_pairs n blocksize)
        (betweenStep zt T (start_stop_pairs n blocksize) j M i) i j
      = sylCall zt T (start_stop_pairs n blocksize) M i j := by
    apply sylCall_congr
    · intro x y _ _ _ hy; exact betweenStep_frame (by omega)
    · intro x y hx _ _ _; exact betweenStep_frame (by omega)
    · intro x y _ _ _ hy; exact betweenStep_frame (by omega)
    · intro x y hx _ _ _; exact betweenStep_frame (by omega)
  intro a b ha hb
  rw [hcall, betweenStep_apply, if_pos (by omega), Nat.add_sub_cancel_left,
    Nat.add_sub_cancel_left]

/-- The inner (descending `i`) loop of the between-block phase at column
block `j`, truncated to `i < c`. -/
def betweenInner (zt : Ztrsyl α) (T : Mat α) (pairs : List (Nat × Nat))
    (j c : Nat) (S : Mat α) : Mat α :=
  ((List.range' 0 c).reverse).foldl (betweenStep zt T pairs j) S

theorem betweenInner_succ (zt : Ztrsyl α) (T : Mat α) (pairs : List (Nat × Nat))
    (j c : Nat) (S : Mat α) :
    betweenInner zt T pairs j (c + 1) S
      = betweenInner zt T pairs j c (betweenStep zt T pairs j S c) := by
  unfold betweenInner
  rw [List.range'_concat, List.reverse_append]
  simp

theorem betweenLoop_succ (zt : Ztrsyl α) (T : Mat α) (pairs : List (Nat × Nat))
    (m : Nat) (R : Mat α) :
    betweenLoop zt T pairs (m + 1) R
      = betweenInner zt T pairs m m (betweenLoop zt T pairs m R) := by
  unfold betweenLoop betweenInner
  rw [List.range_succ, List.foldl_append]
  simp

/-- Invariant of the inner between-block loop: once every pair `(u, v)` with
`v < j` holds and every pair `(u, j)` with `u ≥ c` holds, running the loop
down from `i = c - 1` establishes every pair `(u, v)` with `v ≤ j`. -/
theorem betweenInner_spec (n blocksize : Nat) (zt : Ztrsyl α) (T : Mat α)
    {j : Nat} (hj : j < (start_stop_pairs n blocksize).length) :
    ∀ c : Nat, c ≤ j → ∀ S : Mat α,
      (∀ u v : Nat, u < v → v < j →
          blockEq zt T (start_stop_pairs n blocksize) S u v) →
      (∀ u : Nat, c ≤ u → u < j →
          blockEq zt T (start_stop_pairs n blocksize) S u j) →
      ∀ u v : Nat, u < v → v ≤ j →
        blockEq zt T (start_stop_pairs n blocksize)
          (betweenInner zt T (start_stop_pairs n blocksize) j c S) u v := by
  intro c
  induction c with
  | zero =>
    intro _ S h1 h2 u v huv hvj
    rcases Nat.lt_or_ge v j with h | h
    · exact h1 u v huv h
    · have hvj2 : v = j := by omega
      subst hvj2
      exact h2 u (Nat.zero_le u) huv
  | succ c ih =>
    intro hc S h1 h2 u v huv hvj
    rw [betweenInner_succ]
    have hcj : c < j := by omega
    refine ih (by omega) (betweenStep zt T (start_stop_pairs n blocksize) j S c)
      ?_ ?_ u v huv hvj
    · intro u2 v2 huv2 hv2
      exact blockEq_preserved n blocksize zt T S hj hcj huv2 (le_of_lt hv2)
        (Or.inl hv2) (h1 u2 v2 huv2 hv2)
    · intro u2 hcu2 hu2
      rcases Nat.lt_or_ge c u2 with hgt | hle
      · exact blockEq_preserved n blocksize zt T S hj hcj hu2 (le_refl j)
          (Or.inr ⟨rfl, hgt⟩) (h2 u2 (by omega) hu2)
      · have hu2c : u2 = c := by omega
        subst hu2c
        exact blockEq_established n blocksize zt T S hj hu2

/-- Invariant of the whole between-block phase: after processing the first `m`
column blocks every pair `(u, v)` with `v < m` satisfies its block equation. -/
theorem betweenLoop_spec (n blocksize : Nat) (zt : Ztrsyl α) (T : Mat α) :
    ∀ m : Nat, m ≤ (start_stop_pairs n blocksize).length → ∀ R : Mat α,
      ∀ u v : Nat, u < v → v < m →
        blockEq zt T (start_stop_pairs n blocksize)
          (betweenLoop zt T (start_stop_pairs n blocksize) m R) u v := by
  intro m
  induction m with
  | zero => intro _ R u v _ h; omega
  | succ m ih =>
    intro hm R u v huv hv
    rw [betweenLoop_succ]
    have hmlen : m < (start_stop_pairs n blocksize).length := by omega
    refine betweenInner_spec n blocksize zt T hmlen m (le_refl m) _ ?_ ?_ u v huv
      (by omega)
    · intro u2 v2 huv2 hv2
      exact ih (by omega) R u2 v2 huv2 hv2
    · intro u2 h1 h2
      exact absurd h2 (by omega)

/-- Claim C6: the engine returns its final accumulator, and for every pair of
block indices `u < v < nblocks` the final accumulator satisfies the between
phase equation `blockEq`: the rectangle `R[block_u rows, block_v cols]` equals
`x * scale` for `(x, scale, info) = ztrsyl(Ruu, Rvv, S)` where
`S = T[block_u rows, block_v cols]` minus — exactly when `v - u > 1` — the
coupling `R[block_u rows, between cols] · R[between rows, block_v cols]`, all
read from the final state (valid because pairs are processed in increasing `v`
and, for fixed `v`, decreasing `u`). -/
theorem C6_between_solve {α : Type} [Field α] (sq : α → α) (zt : Ztrsyl α)
    (T : Mat α) (n blocksize : Nat) (hb : 1 ≤ blocksize) :
    _sqrtm_triu sq zt T n blocksize = some (engineResult sq zt T n blocksize)
    ∧ ∀ u v : Nat, u < v → v < nblocksOf n blocksize →
        blockEq zt T (start_stop_pairs n blocksize)
          (engineResult sq zt T n blocksize) u v := by
  constructor
  · unfold _sqrtm_triu
    simp [partition_sum n blocksize]
  · intro u v huv hv
    unfold engineResult
    refine betweenLoop_spec n blocksize zt T (nblocksOf n blocksize) ?_ _ u v huv hv
    rw [pairs_length n blocksize]

/-- Witness for C6 at `N = 3`, `blocksize = 1`, over `ℚ`. -/
theorem C6_between_solve_witness :
    (1 ≤ 1 : Prop)
    ∧ _sqrtm_triu (α := ℚ) id (fun _ _ S => (S, 1, 0)) (fun _ _ => 0) 3 1
        = some (engineResult id (fun _ _ S => (S, 1, 0)) (fun _ _ => 0) 3 1) :=
  ⟨by decide,
    (C6_between_solve (α := ℚ) id (fun _ _ S => (S, 1, 0)) (fun _ _ => 0) 3 1
      (by decide)).1⟩

/-! ### Write trace: each entry on or above the diagonal is written once -/

/-- Targets of the diagonal-seeding assignments (line 51), in order. -/
def diagWrites (n : Nat) : List (Nat × Nat) := (List.range n).map (fun i => (i, i))

/-- Targets of the inner within-block loop for column `j` of the block
starting at `a` (line 74), in execution order. -/
def colWrites (a j : Nat) : List (Nat × Nat) :=
  ((List.range' a (j - a)).reverse).map (fun i => (i, j))

/-- Targets of the within-block loop of one block (line 73). -/
def blockWrites (p : Nat × Nat) : List (Nat × Nat) :=
  ((List.range' p.1 (p.2 - p.1)).map (fun j => colWrites p.1 j)).flatten

/-- Targets of the whole within-block phase (line 72). -/
def withinWrites (pairs : List (Nat × Nat)) : List (Nat × Nat) :=
  (pairs.map blockWrites).flatten

/-- Targets of the block assignment `R[istart:istop, jstart:jstop] = x * scale`
(line 97), row-major. -/
def rectWrites (ip jp : Nat × Nat) : List (Nat × Nat) :=
  ((List.range' ip.1 (ip.2 - ip.1)).map
    (fun r => (List.range' jp.1 (jp.2 - jp.1)).map (fun c => (r, c)))).flatten

/-- Targets of the between-block phase (lines 81-97), in execution order. -/
def betweenWrites (pairs : List (Nat × Nat)) (nb : Nat) : List (Nat × Nat) :=
  ((List.range nb).map
    (fun j => (((List.range' 0 j).reverse).map
      (fun i => rectWrites (pairs.getD i (0, 0)) (pairs.getD j (0, 0)))).flatten)).flatten

/-- All assignment targets of the engine, in execution order. -/
def writeTrace (n blocksize : Nat) : List (Nat × Nat) :=
  diagWrites n ++ withinWrites (start_stop_pairs n blocksize)
    ++ betweenWrites (start_stop_pairs n blocksize) (nblocksOf n blocksize)

theorem mem_diagWrites {n p q : Nat} : (p, q) ∈ diagWrites n ↔ p = q ∧ p < n := by
  unfold diagWrites
  rw [List.mem_map]
  constructor
  · rintro ⟨i, hi, h⟩
    obtain ⟨h1, h2⟩ := Prod.mk.injEq .. ▸ h
    subst h1
    subst h2
    exact ⟨rfl, List.mem_range.1 hi⟩
  · rintro ⟨h1, h2⟩
    subst h1
    exact ⟨p, List.mem_range.2 h2, rfl⟩

theorem mem_colWrites {a j p q : Nat} :
    (p, q) ∈ colWrites a j ↔ a ≤ p ∧ p < j ∧ q = j := by
  unfold colWrites
  rw [List.mem_map]
  constructor
  · rintro ⟨i, hi, h⟩
    rw [List.mem_reverse] at hi
    have hb := List.mem_range'_1.1 hi
    obtain ⟨h1, h2⟩ := Prod.mk.injEq .. ▸ h
    subst h1
    subst h2
    omega
  · rintro ⟨h1, h2, h3⟩
    subst h3
    exact ⟨p, List.mem_reverse.2 (List.mem_range'_1.2 (by omega)), rfl⟩

theorem mem_blockWrites {bp : Nat × Nat} {p q : Nat} :
    (p, q) ∈ blockWrites bp ↔ bp.1 ≤ p ∧ p < q ∧ q < bp.2 := by
  unfold blockWrites
  rw [List.mem_flatten]
  constructor
  · rintro ⟨l, hl, hx⟩
    rcases List.mem_map.1 hl with ⟨j, hj, rfl⟩
    have hjb := List.mem_range'_1.1 hj
    have hc := mem_colWrites.1 hx
    omega
  · rintro ⟨h1, h2, h3⟩
    refine ⟨colWrites bp.1 q, List.mem_map.2 ⟨q, List.mem_range'_1.2 (by omega), rfl⟩,
      mem_colWrites.2 ⟨h1, h2, rfl⟩⟩

theorem mem_withinWrites {pairs : List (Nat × Nat)} {p q : Nat} :
    (p, q) ∈ withinWrites pairs
      ↔ ∃ bp ∈ pairs, bp.1 ≤ p ∧ p < q ∧ q < bp.2 := by
  unfold withinWrites
  rw [List.mem_flatten]
  constructor
  · rintro ⟨l, hl, hx⟩
    rcases List.mem_map.1 hl with ⟨bp, hbp, rfl⟩
    exact ⟨bp, hbp, mem_blockWrites.1 hx⟩
  · rintro ⟨bp, hbp, h⟩
    exact ⟨blockWrites bp, List.mem_map.2 ⟨bp, hbp, rfl⟩, mem_blockWrites.2 h⟩

theorem mem_rectWrites {ip jp : Nat × Nat} {p q : Nat} :
    (p, q) ∈ rectWrites ip jp
      ↔ ip.1 ≤ p ∧ p < ip.2 ∧ jp.1 ≤ q ∧ q < jp.2 := by
  unfold rectWrites
  rw [List.mem_flatten]
  constructor
  · rintro ⟨l, hl, hx⟩
    rcases List.mem_map.1 hl with ⟨r, hr, rfl⟩
    rcases List.mem_map.1 hx with ⟨c, hc, h⟩
    have hrb := List.mem_range'_1.1 hr
    have hcb := List.mem_range'_1.1 hc
    obtain ⟨h1, h2⟩ := Prod.mk.injEq .. ▸ h
    subst h1
    subst h2
    omega
  · rintro ⟨h1, h2, h3, h4⟩
    refine ⟨(List.range' jp.1 (jp.2 - jp.1)).map (fun c => (p, c)),
      List.mem_map.2 ⟨p, List.mem_range'_1.2 (by omega), rfl⟩,
      List.mem_map.2 ⟨q, List.mem_range'_1.2 (by omega), rfl⟩⟩

theorem mem_betweenWrites {pairs : List (Nat × Nat)} {nb p q : Nat} :
    (p, q) ∈ betweenWrites pairs nb
      ↔ ∃ i j : Nat, i < j ∧ j < nb
          ∧ (p, q) ∈ rectWrites (pairs.getD i (0, 0)) (pairs.getD j (0, 0)) := by
  unfold betweenWrites
  rw [List.mem_flatten]
  constructor
  · rintro ⟨l, hl, hx⟩
    rcases List.mem_map.1 hl with ⟨j, hj, rfl⟩
    rcases List.mem_flatten.1 hx with ⟨l2, hl2, hx2⟩
    rcases List.mem_map.1 hl2 with ⟨i, hi, rfl⟩
    rw [List.mem_reverse] at hi
    have hib := List.mem_range'_1.1 hi
    exact ⟨i, j, by omega, List.mem_range.1 hj, hx2⟩
  · rintro ⟨i, j, hij, hj, hx⟩
    refine ⟨_, List.mem_map.2 ⟨j, List.mem_range.2 hj, rfl⟩, ?_⟩
    exact List.mem_flatten.2 ⟨_,
      List.mem_map.2 ⟨i, List.mem_reverse.2 (List.mem_range'_1.2 (by omega)), rfl⟩, hx⟩

theorem nodup_diagWrites (n : Nat) : (diagWrites n).Nodup :=
  List.Nodup.map (fun x y h => (Prod.mk.injEq .. ▸ h).1) (List.nodup_range n)

theorem nodup_colWrites (a j : Nat) : (colWrites a j).Nodup :=
  List.Nodup.map (fun x y h => (Prod.mk.injEq .. ▸ h).1)
    (List.nodup_reverse.2 (List.nodup_range' a (j - a)))

theorem nodup_blockWrites (bp : Nat × Nat) : (blockWrites bp).Nodup := by
  unfold blockWrites
  rw [List.nodup_flatten]
  constructor
  · intro l hl
    rcases List.mem_map.1 hl with ⟨j, _, rfl⟩
    exact nodup_colWrites _ _
  · rw [List.pairwise_map]
    apply List.Pairwise.imp ?_ (List.pairwise_lt_range' bp.1 (bp.2 - bp.1))
    intro j j2 hjj x hx1 hx2
    obtain ⟨p, q⟩ := x
    have h1 := mem_colWrites.1 hx1
    have h2 := mem_colWrites.1 hx2
    omega

theorem nodup_rectWrites (ip jp : Nat × Nat) : (rectWrites ip jp).Nodup := by
  unfold rectWrites
  rw [List.nodup_flatten]
  constructor
  · intro l hl
    rcases List.mem_map.1 hl with ⟨r, _, rfl⟩
    exact List.Nodup.map (fun x y h => (Prod.mk.injEq .. ▸ h).2)
      (List.nodup_range' _ _)
  · rw [List.pairwise_map]
    apply List.Pairwise.imp ?_ (List.pairwise_lt_range' ip.1 (ip.2 - ip.1))
    intro r r2 hrr x hx1 hx2
    obtain ⟨p, q⟩ := x
    rcases List.mem_map.1 hx1 with ⟨c, _, h⟩
    rcases List.mem_map.1 hx2 with ⟨c2, _, h2⟩
    obtain ⟨e1, e2⟩ := Prod.mk.injEq .. ▸ h
    obtain ⟨f1, f2⟩ := Prod.mk.injEq .. ▸ h2
    omega

theorem nodup_withinWrites (n blocksize : Nat) :
    (withinWrites (start_stop_pairs n blocksize)).Nodup := by
  unfold withinWrites
  rw [List.nodup_flatten]
  constructor
  · intro l hl
    rcases List.mem_map.1 hl with ⟨bp, _, rfl⟩
    exact nodup_blockWrites bp
  · rw [List.pairwise_map]
    apply List.Pairwise.imp ?_ (pairs_chain n blocksize)
    intro bp bq hrel x hx1 hx2
    obtain ⟨p, q⟩ := x
    have h1 := mem_blockWrites.1 hx1
    have h2 := mem_blockWrites.1 hx2
    omega

theorem nodup_betweenWrites (n blocksize : Nat) :
    (betweenWrites (start_stop_pairs n blocksize) (nblocksOf n blocksize)).Nodup := by
  unfold betweenWrites
  rw [List.nodup_flatten]
  constructor
  · intro l hl
    rcases List.mem_map.1 hl with ⟨j, hj, rfl⟩
    have hjnb : j < nblocksOf n blocksize := List.mem_range.1 hj
    have hjlen : j < (start_stop_pairs n blocksize).length := by
      rw [pairs_length n blocksize]; exact hjnb
    rw [List.nodup_flatten]
    constructor
    · intro l2 hl2
      rcases List.mem_map.1 hl2 with ⟨i, _, rfl⟩
      exact nodup_rectWrites _ _
    · rw [List.pairwise_map]
      apply List.Pairwise.imp_of_mem ?_
        (List.pairwise_reverse.2 ((List.pairwise_lt_range' 0 j).imp
          (fun {a b} h => h)))
      intro i i2 hi hi2 hii x hx1 hx2
      rw [List.mem_reverse] at hi hi2
      have hib := List.mem_range'_1.1 hi
      have hib2 := List.mem_range'_1.1 hi2
      obtain ⟨p, q⟩ := x
      have h1 := mem_rectWrites.1 hx1
      have h2 := mem_rectWrites.1 hx2
      -- the two source blocks are distinct, hence their row ranges disjoint
      exact block_disjoint n blocksize (by omega) (by omega)
        (by omega : i2 ≠ i) h2.1 h2.2.1 h1.1 h1.2.1
  · rw [List.pairwise_map]
    apply List.Pairwise.imp_of_mem ?_ (List.pairwise_lt_range (nblocksOf n blocksize))
    intro j j2 hj hj2 hjj x hx1 hx2
    have hjnb : j < nblocksOf n blocksize := List.mem_range.1 hj
    have hjnb2 : j2 < nblocksOf n blocksize := List.mem_range.1 hj2
    obtain ⟨p, q⟩ := x
    rcases List.mem_flatten.1 hx1 with ⟨l1, hl1, hm1⟩
    rcases List.mem_map.1 hl1 with ⟨i1, _, rfl⟩
    rcases List.mem_flatten.1 hx2 with ⟨l2, hl2, hm2⟩
    rcases List.mem_map.1 hl2 with ⟨i2, _, rfl⟩
    have h1 := mem_rectWrites.1 hm1
    have h2 := mem_rectWrites.1 hm2
    have hlen := pairs_length n blocksize
    -- columns lie in the distinct blocks j and j2
    exact block_disjoint n blocksize (u := j) (v := j2) (by omega) (by omega)
      (by omega) h1.2.2.1 h1.2.2.2 h2.2.2.1 h2.2.2.2

/-- The engine's assignment targets are exactly the on-or-above-diagonal
entries of the `n × n` accumulator. -/
theorem mem_writeTrace (n blocksize : Nat) (p q : Nat) :
    (p, q) ∈ writeTrace n blocksize ↔ p ≤ q ∧ q < n := by
  unfold writeTrace
  rw [List.mem_append, List.mem_append]
  constructor
  · rintro ((h | h) | h)
    · have := mem_diagWrites.1 h
      omega
    · rcases mem_withinWrites.1 h with ⟨bp, hbp, hw⟩
      have := pairs_mem_bounds n blocksize hbp
      omega
    · rcases mem_betweenWrites.1 h with ⟨i, j, hij, hj, hr⟩
      have hjlen : j < (start_stop_pairs n blocksize).length := by
        rw [pairs_length n blocksize]; exact hj
      have hilen : i < (start_stop_pairs n blocksize).length := lt_trans hij hjlen
      have hr2 := mem_rectWrites.1 hr
      have hch := pairs_chain_getD n blocksize hij hjlen
      have hbj := pairs_getD_bounds n blocksize hjlen
      omega
  · rintro ⟨hpq, hq⟩
    rcases Nat.eq_or_lt_of_le hpq with heq | hlt
    · exact Or.inl (Or.inl (mem_diagWrites.2 ⟨heq, by omega⟩))
    · obtain ⟨kq, hkq, hq1, hq2⟩ := exists_block n blocksize hq
      have hp : p < n := by omega
      obtain ⟨kp, hkp, hp1, hp2⟩ := exists_block n blocksize hp
      rcases Nat.lt_or_ge kp kq with hlt2 | hge
      · refine Or.inr (mem_betweenWrites.2 ⟨kp, kq, hlt2, ?_, ?_⟩)
        · rw [← pairs_length n blocksize]
          exact hkq
        · exact mem_rectWrites.2 ⟨hp1, hp2, hq1, hq2⟩
      · have hkeq : kp = kq := by
          by_contra hne
          have hlt3 : kq < kp := by omega
          have hch := pairs_chain_getD n blocksize hlt3 hkp
          omega
        rw [← hkeq] at hq1 hq2
        refine Or.inl (Or.inr (mem_withinWrites.2
          ⟨(start_stop_pairs n blocksize).getD kp (0, 0), ?_, hp1, hlt, hq2⟩))
        rw [List.getD_eq_getElem _ _ hkp]
        exact List.getElem_mem hkp

theorem betweenInner_lower (n blocksize : Nat) (zt : Ztrsyl α) (T : Mat α)
    {j : Nat} (hj : j < (start_stop_pairs n blocksize).length) :
    ∀ c : Nat, c ≤ j → ∀ (S : Mat α) (x y : Nat), y ≤ x →
      betweenInner zt T (start_stop_pairs n blocksize) j c S x y = S x y := by
  intro c
  induction c with
  | zero => intro _ S x y _; rfl
  | succ c ih =>
    intro hc S x y hyx
    rw [betweenInner_succ]
    rw [ih (by omega) _ x y hyx]
    have hch : blkStop (start_stop_pairs n blocksize) c
        ≤ blkStart (start_stop_pairs n blocksize) j :=
      pairs_chain_getD n blocksize (show c < j by omega) hj
    exact betweenStep_frame (by omega)

theorem betweenLoop_lower (n blocksize : Nat) (zt : Ztrsyl α) (T : Mat α) :
    ∀ m : Nat, m ≤ (start_stop_pairs n blocksize).length →
      ∀ (R : Mat α) (x y : Nat), y ≤ x →
        betweenLoop zt T (start_stop_pairs n blocksize) m R x y = R x y := by
  intro m
  induction m with
  | zero => intro _ R x y _; rfl
  | succ m ih =>
    intro hm R x y hyx
    rw [betweenLoop_succ]
    rw [betweenInner_lower n blocksize zt T (by omega) m (le_refl m) _ x y hyx]
    exact ih (by omega) R x y hyx

/-- Claim C8: the engine's write trace is duplicate-free and covers exactly the
entries on or above the diagonal (each such entry is written exactly once
across the three phases and never revisited), and every entry strictly below
the diagonal keeps its initial zero in the returned accumulator. -/
theorem C8_write_once {α : Type} [Field α] (sq : α → α) (zt : Ztrsyl α)
    (T : Mat α) (n blocksize : Nat) (hb : 1 ≤ blocksize) :
    (writeTrace n blocksize).Nodup
    ∧ (∀ p q : Nat, (p, q) ∈ writeTrace n blocksize ↔ p ≤ q ∧ q < n)
    ∧ (∀ p q : Nat, q < p → engineResult sq zt T n blocksize p q = 0) := by
  refine ⟨?_, fun p q => mem_writeTrace n blocksize p q, ?_⟩
  · unfold writeTrace
    rw [List.nodup_append]
    refine ⟨?_, nodup_betweenWrites n blocksize, ?_⟩
    · rw [List.nodup_append]
      refine ⟨nodup_diagWrites n, nodup_withinWrites n blocksize, ?_⟩
      -- a diagonal write has p = q; within writes are strictly above
      intro x hx1 hx2
      obtain ⟨p, q⟩ := x
      have hd := mem_diagWrites.1 hx1
      rcases mem_withinWrites.1 hx2 with ⟨bp, _, hw⟩
      omega
    · -- seeding and within writes stay inside one block; a between write
      -- spans two distinct blocks
      intro x hx1 hx2
      obtain ⟨p, q⟩ := x
      rcases mem_betweenWrites.1 hx2 with ⟨i, j, hij, hjnb, hr⟩
      have hjlen : j < (start_stop_pairs n blocksize).length := by
        rw [pairs_length n blocksize]; exact hjnb
      have hilen : i < (start_stop_pairs n blocksize).length := lt_trans hij hjlen
      have hr2 := mem_rectWrites.1 hr
      have hch := pairs_chain_getD n blocksize hij hjlen
      rcases List.mem_append.1 hx1 with h | h
      · have hd := mem_diagWrites.1 h
        omega
      · rcases mem_withinWrites.1 h with ⟨bp, hbp, hw⟩
        rcases List.mem_iff_getElem.1 hbp with ⟨k, hk, hpk⟩
        have hgd1 : ((start_stop_pairs n blocksize).getD k (0, 0)).1 = bp.1 := by
          rw [List.getD_eq_getElem _ _ hk, hpk]
        have hgd2 : ((start_stop_pairs n blocksize).getD k (0, 0)).2 = bp.2 := by
          rw [List.getD_eq_getElem _ _ hk, hpk]
        have hki : k = i := by
          by_contra hne
          exact block_disjoint n blocksize hk hilen hne (by omega) (by omega)
            hr2.1 hr2.2.1
        have hkj : k = j := by
          by_contra hne
          exact block_disjoint n blocksize hk hjlen hne (by omega) (by omega)
            hr2.2.2.1 hr2.2.2.2
        omega
  · intro p q hqp
    unfold engineResult
    rw [betweenLoop_lower n blocksize zt T (nblocksOf n blocksize)
      (by rw [pairs_length n blocksize]) _ p q (by omega)]
    unfold withinResult
    obtain ⟨wA, _⟩ := withinBlocks_spec T (start_stop_pairs n blocksize)
      (seedDiag sq T n) (pairs_chain n blocksize)
      (fun bp hbp => (pairs_mem_bounds n blocksize hbp).1)
    rw [wA p q (fun bp _ => by omega)]
    unfold seedDiag
    rw [if_neg (by omega)]

/-- Witness for C8 at `N = 2`, `blocksize = 1`, over `ℚ`. -/
theorem C8_write_once_witness :
    (1 ≤ 1 : Prop)
    ∧ (writeTrace 2 1).Nodup
    ∧ ((0, 1) ∈ writeTrace 2 1 ↔ 0 ≤ 1 ∧ 1 < 2) :=
  ⟨by decide,
    (C8_write_once (α := ℚ) id (fun _ _ S => (S, 1, 0)) (fun _ _ => 0) 2 1
      (by decide)).1,
    (C8_write_once (α := ℚ) id (fun _ _ S => (S, 1, 0)) (fun _ _ => 0) 2 1
      (by decide)).2.1 0 1⟩

/-! ### The driver `sqrtm` (lines 103-153) -/

/-- Result of a `sqrtm` call: a raised `ValueError`, a raised `NameError`
(unresolvable free variable), the engine's defensive raise (`internalError`,
unreachable by C7), the matrix alone (with a flag recording whether the
singularity advisory was printed), or the pair `(matrix, error estimate)`. -/
inductive SqrtmOutcome (α : Type) where
  | valueError (msg : String)
  | nameError (missing : String)
  | internalError
  | ok (X : Mat α) (warned : Bool)
  | okPair (X : Mat α) (errest : α)

/-- Names bound at module level of `_matfuncs_sqrtm.py`: the
`from __future__ import ...` names, `np`, the four local imports
(lines 11-18), and the two module functions.  `diag` is not among them. -/
def moduleNames : List String :=
  ["division", "print_function", "absolute_import", "__all__", "np", "norm",
    "ztrsyl", "all_mat", "schur", "rsf2csf", "_sqrtm_triu", "sqrtm"]

/-- Local names bound inside `sqrtm` by the time the `disp` branch runs
(lines 134-143). -/
def sqrtmLocalNames : List String :=
  ["A", "disp", "blocksize", "T", "Z", "R", "X"]

/-- Python name resolution for a free variable occurring in the body of
`sqrtm`: local scope, then module globals (`diag` is not a Python builtin). -/
def resolvesInSqrtm (name : String) : Bool :=
  sqrtmLocalNames.contains name || moduleNames.contains name

/-- Entrywise matrix difference (numpy elementwise subtraction). -/
def matSub (M N : Mat α) : Mat α := fun i j => M i j - N i j

/-- Line 152, verbatim from the source:
`arg2 = norm(X*X - A, 'fro')**2 / norm(A, 'fro')` — note the square on the
numerator norm.  `normF` is the trusted Frobenius-norm primitive and `mulF`
the trusted dense matrix product. -/
def arg2 (normF : Mat α → α) (mulF : Mat α → Mat α → Mat α) (X A : Mat α) : α :=
  normF (matSub (mulF X X) A) ^ 2 / normF A

/-- The input array: its shape tuple and (for 2-D inputs) its entries. -/
structure PyArray (α : Type) where
  shape : List Nat
  data : Mat α

/-- Continuation of `sqrtm` after validation and the Schur steps (lines
141-153), consuming the engine's result.  With `disp=True` the branch at
line 146 evaluates `np.any(diag(T) == 0)`, whose head name `diag` must
resolve in the enclosing scopes; the flag of `ok` records the advisory that
the code would print were `diag` bound (it is `np.diag` in intent). -/
def sqrtmTail [DecidableEq α] (reconF : Mat α → Mat α → Mat α)
    (mulF : Mat α → Mat α → Mat α) (normF : Mat α → α)
    (TZ2 : Mat α × Mat α) (n : Nat) (Adata : Mat α) (disp : Bool) :
    Option (Mat α) → SqrtmOutcome α
  | none => .internalError
  | some R =>
    if disp then
      if resolvesInSqrtm "diag" then
        .ok (reconF TZ2.2 R) ((List.range n).any (fun i => decide (TZ2.1 i i = 0)))
      else .nameError "diag"
    else .okPair (reconF TZ2.2 R) (arg2 normF mulF (reconF TZ2.2 R) Adata)

/-- Lines 103-153: `sqrtm(A, disp=True, blocksize=64)`.  The external
collaborators are parameters: `schurF` (`schur`), `rsf2csfF` (`rsf2csf`),
`reconF` (the reconstruction `Z * R * Z.H` via `all_mat` and `np.matrix`
arithmetic), `mulF` and `normF` (dense product and Frobenius norm), and
`sq`, `zt` for the engine.  The two validation checks of lines 134-139 are
the only `ValueError` raises; `n` is taken from the second shape component
exactly as the engine's `n, n = T.shape` unpacking does. -/
def sqrtm [DecidableEq α] (schurF : Mat α → Mat α × Mat α)
    (rsf2csfF : Mat α → Mat α → Mat α × Mat α)
    (reconF : Mat α → Mat α → Mat α)
    (mulF : Mat α → Mat α → Mat α) (normF : Mat α → α)
    (sq : α → α) (zt : Ztrsyl α)
    (A : PyArray α) (disp : Bool) (blocksize : Int) : SqrtmOutcome α :=
  if A.shape.length ≠ 2 then .valueError "Non-matrix input to matrix function."
  else if blocksize < 1 then .valueError "The blocksize should be at least 1."
  else
    sqrtmTail reconF mulF normF
      (rsf2csfF (schurF A.data).1 (schurF A.data).2) (A.shape.getD 1 0) A.data
      disp
      (_sqrtm_triu sq zt (rsf2csfF (schurF A.data).1 (schurF A.data).2).1
        (A.shape.getD 1 0) blocksize.toNat)

/-- Recognizer for the invalid-argument outcome. -/
def isValueError : SqrtmOutcome α → Bool
  | .valueError _ => true
  | _ => false

/-- Claim C1 (code bug): with `disp=True` (the default), the branch at line
146 reads the free variable `diag`, which is bound neither in `sqrtm`'s local
scope nor at module level (only `np` is imported), so every such call — in
particular the spec's example `A = [[0,1],[0,0]]` — raises `NameError`
instead of printing the advisory and returning `X`. -/
theorem C1_disp_name_error :
    resolvesInSqrtm "diag" = false
    ∧ ∀ (schurF : Mat ℚ → Mat ℚ × Mat ℚ)
        (rsf2csfF : Mat ℚ → Mat ℚ → Mat ℚ × Mat ℚ)
        (reconF : Mat ℚ → Mat ℚ → Mat ℚ) (mulF : Mat ℚ → Mat ℚ → Mat ℚ)
        (normF : Mat ℚ → ℚ) (sq : ℚ → ℚ) (zt : Ztrsyl ℚ),
        sqrtm schurF rsf2csfF reconF mulF normF sq zt
          ⟨[2, 2], fun i j => if i = 0 ∧ j = 1 then 1 else 0⟩ true 64
          = .nameError "diag" := by
  refine ⟨rfl, ?_⟩
  intro schurF rsf2csfF reconF mulF normF sq zt
  rfl

/-- Counterexample to Claim C2: a 2-D non-square input (shape `(2, 3)`,
`disp=False`, `blocksize=64`) passes both driver checks and the call runs to
completion instead of rejecting with `ValueError` — the driver never
validates squareness. -/
theorem C2_nonsquare_not_rejected :
    isValueError (sqrtm (fun M => (M, M)) (fun T Z => (T, Z)) (fun _ R => R)
      (fun X _ => X) (fun _ => 0) id (fun _ _ S => (S, 1, 0))
      (⟨[2, 3], fun _ _ => (1 : ℚ)⟩ : PyArray ℚ) false 64) = false := rfl

/-- Claim C2 as amended: the driver raises `ValueError` (before any
computation) exactly when the input is not 2-D or `blocksize < 1`; a
non-square 2-D input is not rejected by the driver's validation. -/
theorem C2_validation {α : Type} [Field α] [DecidableEq α]
    (schurF : Mat α → Mat α × Mat α) (rsf2csfF : Mat α → Mat α → Mat α × Mat α)
    (reconF : Mat α → Mat α → Mat α) (mulF : Mat α → Mat α → Mat α)
    (normF : Mat α → α) (sq : α → α) (zt : Ztrsyl α)
    (A : PyArray α) (disp : Bool) (blocksize : Int) :
    isValueError (sqrtm schurF rsf2csfF reconF mulF normF sq zt A disp blocksize)
        = true
      ↔ (A.shape.length ≠ 2 ∨ blocksize < 1) := by
  unfold sqrtm
  split_ifs with h1 h2
  · simp [isValueError, h1]
  · simp [isValueError, h2]
  · rcases hm : _sqrtm_triu sq zt (rsf2csfF (schurF A.data).1 (schurF A.data).2).1
        (A.shape.getD 1 0) blocksize.toNat with _ | R
    · simp [sqrtmTail, isValueError, h1, h2]
    · unfold sqrtmTail
      rcases disp with _ | _
      · simp [isValueError, h1, h2]
      · rcases hr : resolvesInSqrtm "diag" with _ | _
        · simp [isValueError, h1, h2]
        · simp [isValueError, h1, h2]

/-- The Frobenius norm of a `1 × 1` matrix, exact over `ℚ`:
`‖[[x]]‖_F = |x|`.  Instantiates the trusted norm primitive. -/
def frob1 (M : Mat ℚ) : ℚ := |M 0 0|

/-- Dense product of `1 × 1` matrices. -/
def mul1 (X Y : Mat ℚ) : Mat ℚ := fun _ _ => X 0 0 * Y 0 0

/-- Claim C3 (code bug): line 152 squares the numerator norm —
`arg2 = norm(X*X - A, 'fro')**2 / norm(A, 'fro')` — contradicting the claimed
(and the function's own docstring) value `‖X·X − A‖_F / ‖A‖_F`.  On a run
whose first component is `X = [[0]]` for `A = [[-3]]` (so the residual norm
and `‖A‖_F` are both exactly 3) the returned second component is 3, while the
claimed formula gives 1. -/
theorem C3_errest_squared :
    sqrtm (fun M => (M, M)) (fun T Z => (T, Z)) (fun _ _ => (fun _ _ => 0))
        mul1 frob1 id (fun _ _ S => (S, 1, 0))
        (⟨[1, 1], fun _ _ => (-3 : ℚ)⟩ : PyArray ℚ) false 64
      = .okPair (fun _ _ => 0) 3
    ∧ frob1 (matSub (mul1 (fun _ _ => 0) (fun _ _ => 0)) (fun _ _ => (-3 : ℚ)))
        / frob1 (fun _ _ => (-3 : ℚ)) = 1
    ∧ (3 : ℚ) ≠ 1 := by
  refine ⟨?_, ?_, by norm_num⟩
  · have h : sqrtm (α := ℚ) (fun M => (M, M)) (fun T Z => (T, Z))
        (fun _ _ => (fun _ _ => 0)) mul1 frob1 id (fun _ _ S => (S, 1, 0))
        ⟨[1, 1], fun _ _ => (-3 : ℚ)⟩ false 64
        = .okPair (fun _ _ => 0)
            (arg2 frob1 mul1 (fun _ _ => 0) (fun _ _ => (-3 : ℚ))) := rfl
    rw [h]
    have h2 : arg2 frob1 mul1 (fun _ _ => (0 : ℚ)) (fun _ _ => (-3 : ℚ)) = 3 := by
      unfold arg2 frob1 matSub mul1
      norm_num
    rw [h2]
  · unfold frob1 matSub mul1
    norm_num
